import Mathlib

/-!
Verification development for the Clarkie crawler
(`src/extract_clarku_catalog_links.ipynb`, cells "Enhanced URL Collection and
Processing" and "Main Execution with Enhanced Link Collection").

The Python code is shallowly embedded: HTML documents are modelled as parsed
DOM trees (`Node`), BeautifulSoup operations as pure functions over them, and
the crawl loop of `main()` as a step function over an explicit `CrawlState`.
-/

namespace Clarkie

/-! ## Character-list helpers (Python string primitives) -/

/-- Python whitespace (`str.strip` / `str.split` with no argument). -/
def pyWs (c : Char) : Bool :=
  c == ' ' || c == '\t' || c == '\n' || c == '\r' || c == '\x0b' || c == '\x0c'

/-- Python `str.strip()`: remove leading and trailing whitespace. -/
def pyStrip (s : String) : String :=
  String.mk (((s.toList.dropWhile pyWs).reverse.dropWhile pyWs).reverse)

/-- Python `sep.join(strs)`. -/
def pyJoin (sep : String) : List String → String
  | [] => ""
  | [s] => s
  | s :: rest => s ++ sep ++ pyJoin sep rest

/-- Python `str.split()` (no argument): split on whitespace runs, no empties.
`acc` holds the characters of the current word, reversed. -/
def pySplitWsGo : List Char → List Char → List String
  | [], acc => if acc.isEmpty then [] else [String.mk acc.reverse]
  | c :: cs, acc =>
    if pyWs c then
      if acc.isEmpty then pySplitWsGo cs [] else String.mk acc.reverse :: pySplitWsGo cs []
    else pySplitWsGo cs (c :: acc)

/-- Python `str.split()` on a string. -/
def pySplitWs (s : String) : List String := pySplitWsGo s.toList []

/-- `pat` is a literal prefix of `cs` (Python `str.startswith`). -/
def listStarts : List Char → List Char → Bool
  | [], _ => true
  | _ :: _, [] => false
  | p :: ps, c :: cs => p == c && listStarts ps cs

/-- Python `str.startswith`. -/
def pyStarts (pat s : String) : Bool := listStarts pat.toList s.toList

/-- Python `url.split('#')[0]`: the prefix of the string before the first `#`.
This is what `main()` uses to canonicalize URLs for the visited set. -/
def canonical (url : String) : String :=
  String.mk (url.toList.takeWhile (fun c => c ≠ '#'))

/-- Characters allowed in a URL scheme after the leading letter
(`urllib.parse` `scheme_chars`). -/
def schemeChar (c : Char) : Bool :=
  c.isAlpha || c.isDigit || c == '+' || c == '-' || c == '.'

/-- Whether the part of a URL before the first `:` is a valid scheme
(nonempty, leading letter, only scheme characters). -/
def validScheme : List Char → Bool
  | [] => false
  | c :: cs => c.isAlpha && cs.all schemeChar

/-- Drop a leading `scheme:` from a URL, as `urllib.parse.urlsplit` does
before looking for the netloc. -/
def dropScheme (cs : List Char) : List Char :=
  let pre := cs.takeWhile (fun c => c ≠ ':')
  if pre.length < cs.length && validScheme pre then cs.drop (pre.length + 1) else cs

/-- The scheme of a URL (empty if none); used only by the spec-side reading of
`extractLinks` ("the base URL's scheme"). -/
def schemeOf (url : String) : String :=
  let cs := url.toList
  let pre := cs.takeWhile (fun c => c ≠ ':')
  if pre.length < cs.length && validScheme pre then String.mk pre else ""

/-- `get_domain(url)`: `urlparse(url).netloc` — what follows `//` (after any
scheme) up to the next `/`, `?`, or `#`; empty when the URL has no `//`. -/
def get_domain (url : String) : String :=
  match dropScheme url.toList with
  | '/' :: '/' :: rest =>
      String.mk (rest.takeWhile (fun c => c ≠ '/' && c ≠ '?' && c ≠ '#'))
  | _ => ""

/-! ## The DOM model

A parsed HTML document is a tree of element and text nodes.  The embedding
works at the DOM level: `BeautifulSoup(html, 'html.parser')` is modelled as the
identity on an already-parsed tree. -/

inductive Node where
  | element (tag : String) (attrs : List (String × String)) (children : List Node)
  | text (s : String)

/-- The tag of an element node (`Tag.name`); text nodes have no name. -/
def Node.tagName : Node → Option String
  | .element t _ _ => some t
  | .text _ => none

/-- Attribute lookup (`tag['attr']` / `tag.get('attr')`). -/
def Node.attr (n : Node) (name : String) : Option String :=
  match n with
  | .element _ attrs _ => (attrs.find? (fun p => p.1 == name)).map (·.2)
  | .text _ => none

mutual
/-- Document-order list of the contents of all text descendants of a node,
including the node itself when it is a text node (`Tag.strings`). -/
def nodeStrings : Node → List String
  | .text s => [s]
  | .element _ _ kids => listStrings kids
def listStrings : List Node → List String
  | [] => []
  | n :: rest => nodeStrings n ++ listStrings rest
end

/-- `get_text(sep, strip=True)`: each descendant string is stripped, empty
results are dropped, and the rest are joined with `sep`. -/
def getTextSep (sep : String) (n : Node) : String :=
  pyJoin sep (((nodeStrings n).map pyStrip).filter (fun s => s ≠ ""))

/-- `get_text(strip=True)` (default separator `""`). -/
def getTextStrip (n : Node) : String := getTextSep "" n

mutual
/-- All nodes of a subtree in document (preorder) order, the root included.
`soup.find_all(...)` searches this list for the whole document. -/
def nodeAll : Node → List Node
  | .text s => [.text s]
  | .element t a kids => .element t a kids :: listAll kids
def listAll : List Node → List Node
  | [] => []
  | n :: rest => nodeAll n ++ listAll rest
end

/-- First descendant element with the given tag (`soup.find(tag)`),
searching the whole tree including the root. -/
def findFirstTag (tag : String) (doc : Node) : Option Node :=
  (nodeAll doc).find? (fun n => n.tagName == some tag)

/-! ## extract_links -/

/-- All `href` values of anchor elements, in document order
(`soup.find_all('a', href=True)`). -/
def hrefsOf (doc : Node) : List String :=
  (nodeAll doc).filterMap (fun n =>
    if n.tagName == some "a" then n.attr "href" else none)

/-- `list(set(links))`.  Python's set iteration order is unspecified; the
embedding fixes first-occurrence order.  All claims about this value are
order-insensitive (set membership / duplicate-freeness). -/
def dedupFirstGo : List String → List String → List String
  | [], _ => []
  | x :: xs, seen =>
    if x ∈ seen then dedupFirstGo xs seen else x :: dedupFirstGo xs (seen ++ [x])

/-- `list(set(links))` (see `dedupFirstGo`). -/
def dedupFirst (l : List String) : List String := dedupFirstGo l []

/-- `extract_links(html, base_url)`: resolve each anchor href (leading-`/`
hrefs get `https://` + the base's domain prepended; absolute `http(s)` hrefs
are kept; everything else is dropped), keep only same-domain results, and
deduplicate. -/
def extract_links (doc : Node) (base_url : String) : List String :=
  let domain := get_domain base_url
  let links := (hrefsOf doc).foldl (fun acc href =>
    if pyStarts "/" href then
      let href := "https://" ++ domain ++ href
      if get_domain href == domain then acc ++ [href] else acc
    else if !(pyStarts "http://" href || pyStarts "https://" href) then acc
    else if get_domain href == domain then acc ++ [href] else acc) []
  dedupFirst links

/-! ## extract_content: noise removal, main-content selection, sectioning -/

/-- Tags removed before content analysis
(`soup.find_all(['nav', 'header', ...])` + `decompose()`). -/
def noiseTags : List String :=
  ["nav", "header", "footer", "script", "style", "noscript", "iframe", "svg", "aside", "form"]

mutual
/-- Noise removal (`element.decompose()` loop): delete every noise element,
together with its subtree, from the tree.  The document root itself is kept
(in the source the root is the soup object, which is not an element). -/
def scrubNode : Node → Node
  | .text s => .text s
  | .element t a kids => .element t a (scrubList kids)
/-- One node under noise removal: dropped entirely when it is a noise
element, otherwise kept with its subtree scrubbed. -/
def scrubKeep : Node → List Node
  | .text s => [.text s]
  | .element t a kids =>
    if t ∈ noiseTags then [] else [.element t a (scrubList kids)]
def scrubList : List Node → List Node
  | [] => []
  | n :: rest => scrubKeep n ++ scrubList rest
end

/-- Values of the id-based content selector
(`{'tag': 'div', 'attrs': {'id': [...]}}`). -/
def contentIds : List String := ["content", "main-content", "mainContent", "main"]

/-- Values of the class-based content selector
(`{'tag': 'div', 'attrs': {'class': [...]}}`). -/
def contentClasses : List String := ["content", "main-content", "main", "article", "post"]

/-- The fixed selector list `main_content_tags`.  The `main` and `article`
entries carry an empty attrs dict, exactly as in the source. -/
def main_content_tags : List (String × List (String × List String)) :=
  [("div", [("id", contentIds)]),
   ("main", []),
   ("article", []),
   ("div", [("class", contentClasses)])]

/-- Attribute filter `lambda x: x and value in x.split() if x else False`,
combined with bs4's multi-valued-attribute matching: the element's attribute
value, space-split, must contain `value`. -/
def attrValueMatches (n : Node) (attrName value : String) : Bool :=
  match n.attr attrName with
  | some v => value ∈ pySplitWs v
  | none => false

/-- `soup.find_all(tag, {attr_name: lambda ...})` over the whole document. -/
def findAttrCandidates (doc : Node) (tag attrName value : String) : List Node :=
  (nodeAll doc).filter (fun n => n.tagName == some tag && attrValueMatches n attrName value)

/-- `max(elements, key=lambda e: len(e.get_text(strip=True)))`: the first
element whose stripped text is longest (Python `max` keeps the first of
equally-long candidates). -/
def pickLargest : List Node → Option Node
  | [] => none
  | n :: rest =>
    some (rest.foldl (fun best m =>
      if (getTextStrip m).length > (getTextStrip best).length then m else best) n)

/-- Inner loop `for value in attr_values: ... break`. -/
def tryAttrValues (doc : Node) (tag attrName : String) : List String → Option Node
  | [] => none
  | v :: vs =>
    match pickLargest (findAttrCandidates doc tag attrName v) with
    | some e => some e
    | none => tryAttrValues doc tag attrName vs

/-- Middle loop `for attr_name, attr_values in attrs.items()`.  For the
`main` / `article` selectors the attrs dict is empty, so this loop body never
runs and those selectors can never match — reproducing the source. -/
def trySelectorAttrs (doc : Node) (tag : String) : List (String × List String) → Option Node
  | [] => none
  | (attrName, vals) :: rest =>
    match tryAttrValues doc tag attrName vals with
    | some e => some e
    | none => trySelectorAttrs doc tag rest

/-- Outer loop `for selector in main_content_tags: ... break`. -/
def trySelectors (doc : Node) : List (String × List (String × List String)) → Option Node
  | [] => none
  | (tag, attrs) :: rest =>
    match trySelectorAttrs doc tag attrs with
    | some e => some e
    | none => trySelectors doc rest

/-- Main-content region selection: the selector loop, then
`main_content = soup.body or soup` as fallback. -/
def select_main_content (doc : Node) : Node :=
  match trySelectors doc main_content_tags with
  | some e => e
  | none =>
    match findFirstTag "body" doc with
    | some b => b
    | none => doc

/-- One heading-delimited block of content: `{'header': ..., 'text': ...}`
(`header` is absent for the fallback blocks). -/
structure Section where
  header : Option String
  text : String
deriving DecidableEq

/-- The sentinel text used when a heading has no following content. -/
def noContentSentinel : String := "No content in this section"

/-- The heading tags tracked by the sectioning pass. -/
def headingTags : List String := ["h1", "h2", "h3", "h4"]

/-- `sibling.name in ['h1', 'h2', 'h3', 'h4']`; text nodes have no name and
never match. -/
def isHeading (n : Node) : Bool :=
  match n.tagName with
  | some t => t ∈ headingTags
  | none => false

/-- The `while sibling and sibling.name not in [...]` walk: collect the
stripped text of each following sibling (text siblings included — modern bs4
gives `NavigableString` a `get_text` method, so `hasattr(sibling, 'get_text')`
holds for them too), dropping empty texts, until the next h1–h4 sibling or the
end of the sibling list. -/
def siblingTexts : List Node → List String
  | [] => []
  | n :: rest =>
    if isHeading n then []
    else
      let t := getTextStrip n
      if t = "" then siblingTexts rest else t :: siblingTexts rest

/-- The Section built for one heading from its following siblings. -/
def sectionFor (header : Node) (followingSiblings : List Node) : Section :=
  let content := pyJoin " " (siblingTexts followingSiblings)
  { header := some (getTextStrip header)
    text := if content = "" then noContentSentinel else content }

mutual
/-- Sections contributed by one node: a Section if the node is an h1–h4
heading with non-empty text (built from its following siblings), followed by
the Sections of its descendants.  Matches the source's
`main_content.find_all(['h1', 'h2', 'h3', 'h4'])` document-order enumeration
combined with the per-header `next_sibling` walk. -/
def sectionsOfNode : Node → List Node → List Section
  | .text _, _ => []
  | .element t a kids, rest =>
    (if isHeading (.element t a kids) && getTextStrip (.element t a kids) ≠ "" then
      [sectionFor (.element t a kids) rest]
    else []) ++ sectionsOfList kids
def sectionsOfList : List Node → List Section
  | [] => []
  | n :: rest => sectionsOfNode n rest ++ sectionsOfList rest
end

/-- The heading-delimited sections of the selected region (the region node
itself is not a candidate heading: `find_all` searches descendants only). -/
def headingSections (region : Node) : List Section :=
  match region with
  | .text _ => []
  | .element _ _ kids => sectionsOfList kids

/-- All paragraph descendants (`main_content.find_all('p')`). -/
def paragraphsOf (region : Node) : List Node :=
  match region with
  | .text _ => []
  | .element _ _ kids => (listAll kids).filter (fun n => n.tagName == some "p")

/-- The full sections value computed by `extract_content`: heading sections,
with the paragraph / whole-text fallback *appended* when there are no heading
sections or none of them has truthy text. -/
def contentSections (region : Node) : List Section :=
  let sections := headingSections region
  if sections.isEmpty || !(sections.any (fun s => s.text ≠ "")) then
    let ps := paragraphsOf region
    if !ps.isEmpty then
      sections ++ [{ header := none
                     text := pyJoin " " ((ps.map getTextStrip).filter (fun t => t ≠ "")) }]
    else
      sections ++ [{ header := none, text := getTextSep " " region }]
  else sections

/-- The page title: `<title>` text, else first `<h1>` text, else `""`
(computed before noise removal). -/
def extractTitle (doc : Node) : String :=
  match findFirstTag "title" doc with
  | some t => getTextStrip t
  | none =>
    match findFirstTag "h1" doc with
    | some h => getTextStrip h
    | none => ""

/-- The sections produced by `extract_content` for a parsed document:
noise removal, region selection, then sectioning with fallback. -/
def extract_sections (doc : Node) : List Section :=
  contentSections (select_main_content (scrubNode doc))

/-! ## `str(content_dict)`: Python dict repr and its inverse

`extract_content` returns `str({'sections': sections})` and `main()` later
re-parses that string with `eval`.  The embedding models Python's `repr` for
strings (quote choice and the `\\`, quote, `\n`, `\r`, `\t` escapes; the
`\xNN` escaping of unprintable characters is not modelled — such characters
are emitted verbatim) and provides a verified inverse parser. -/

/-- Python picks double quotes for `repr` exactly when the string contains a
single quote but no double quote. -/
def pyQuoteChar (cs : List Char) : Char :=
  if '\'' ∈ cs ∧ '"' ∉ cs then '"' else '\''

/-- Escape one character for Python string repr with quote `q`. -/
def pyEscChar (q c : Char) : List Char :=
  if c = '\\' then ['\\', '\\']
  else if c = q then ['\\', q]
  else if c = '\n' then ['\\', 'n']
  else if c = '\r' then ['\\', 'r']
  else if c = '\t' then ['\\', 't']
  else [c]

/-- Python `repr` of a string. -/
def pyReprStr (s : String) : String :=
  let cs := s.toList
  let q := pyQuoteChar cs
  String.mk (q :: (cs.flatMap (pyEscChar q) ++ [q]))

/-- Python `str` of one section dict (`{'header': ..., 'text': ...}` or
`{'text': ...}`; dict keys appear in insertion order). -/
def pyReprSection : Section → String
  | ⟨some h, t⟩ =>
    "\x7b'header': " ++ pyReprStr h ++ ", 'text': " ++ pyReprStr t ++ "\x7d"
  | ⟨none, t⟩ => "\x7b'text': " ++ pyReprStr t ++ "\x7d"

/-- Python `str({'sections': sections})` — the `content` value returned by
`extract_content`. -/
def pyReprContent (secs : List Section) : String :=
  "\x7b'sections': [" ++ pyJoin ", " (secs.map pyReprSection) ++ "]\x7d"

/-- `extract_content(html, url)` for a parsed (non-`None`) document: the
title and the serialized `str({'sections': sections})` string.  (The
`if not html: return None, None` branch is handled by the caller's
`if not html: continue` and never reaches this function in the model.) -/
def extract_content (doc : Node) : String × String :=
  (extractTitle doc, pyReprContent (extract_sections doc))

/-- Consume a literal prefix, returning the rest. -/
def dropLit : List Char → List Char → Option (List Char)
  | [], cs => some cs
  | _ :: _, [] => none
  | p :: ps, c :: cs => if c = p then dropLit ps cs else none

/-- Parse the body of a quoted Python string (after the opening quote `q`)
up to and including the closing quote; returns the decoded characters and the
rest of the input. -/
def parsePyStrBody (q : Char) : List Char → Option (List Char × List Char)
  | [] => none
  | c :: rest =>
    if c = q then some ([], rest)
    else if c = '\\' then
      match rest with
      | [] => none
      | e :: rest' =>
        let d := if e = 'n' then '\n' else if e = 'r' then '\r' else if e = 't' then '\t' else e
        (parsePyStrBody q rest').map (fun p => (d :: p.1, p.2))
    else (parsePyStrBody q rest).map (fun p => (c :: p.1, p.2))

/-- Parse a Python-repr string literal (single- or double-quoted). -/
def parsePyStr (cs : List Char) : Option (String × List Char) :=
  match cs with
  | c :: rest =>
    if c = '\'' ∨ c = '"' then (parsePyStrBody c rest).map (fun p => (String.mk p.1, p.2))
    else none
  | [] => none

/-- Parse one section dict. -/
def parsePySection (cs : List Char) : Option (Section × List Char) :=
  match dropLit "\x7b'header': ".toList cs with
  | some cs1 =>
    match parsePyStr cs1 with
    | some (h, cs2) =>
      match dropLit ", 'text': ".toList cs2 with
      | some cs3 =>
        match parsePyStr cs3 with
        | some (t, cs4) =>
          match dropLit "\x7d".toList cs4 with
          | some cs5 => some (⟨some h, t⟩, cs5)
          | none => none
        | none => none
      | none => none
    | none => none
  | none =>
    match dropLit "\x7b'text': ".toList cs with
    | some cs1 =>
      match parsePyStr cs1 with
      | some (t, cs2) =>
        match dropLit "\x7d".toList cs2 with
        | some cs3 => some (⟨none, t⟩, cs3)
        | none => none
      | none => none
    | none => none

/-- Parse a nonempty `, `-separated run of section dicts followed by the
closing `]`.  `fuel` bounds the recursion (the input length suffices). -/
def parsePySections : Nat → List Char → Option (List Section × List Char)
  | 0, _ => none
  | fuel + 1, cs =>
    match parsePySection cs with
    | some (sec, rest) =>
      match dropLit "]".toList rest with
      | some rest' => some ([sec], rest')
      | none =>
        match dropLit ", ".toList rest with
        | some rest' =>
          (parsePySections fuel rest').map (fun p => (sec :: p.1, p.2))
        | none => none
    | none => none

/-- Parse the full `str({'sections': [...]})` content value back into the
section list; `none` on any malformed input. -/
def parsePyContent (s : String) : Option (List Section) :=
  match dropLit "\x7b'sections': [".toList s.toList with
  | some cs =>
    match dropLit "]\x7d".toList cs with
    | some rest => if rest.isEmpty then some [] else none
    | none =>
      match parsePySections cs.length cs with
      | some (secs, rest) =>
        match dropLit "\x7d".toList rest with
        | some rest' => if rest'.isEmpty then some secs else none
        | none => none
      | none => none
  | none => none

/-! ## The crawl controller (`main()`)

`main()` is embedded as a step function over an explicit state.  The network
is a parameter `world : String → Option Node`: `fetch_url(u)` returns the
parsed page `world u` or `None`.  `fetchLog` records every fetch performed so
that per-run fetch counts can be stated.  The source hardcodes
`root_url = "https://www.clarku.edu/"` and `max_urls = 50`; the embedding
keeps both as parameters (the spec's configuration surface). -/

/-- One output entry, as built by `main()`:
`{"id": str(counter), "title": ..., "url": current_url, "text": content}`. -/
structure Entry where
  id : String
  title : String
  url : String
  text : String
deriving DecidableEq

/-- The run-scoped mutable state of `main()`. -/
structure CrawlState where
  /-- `urls_to_visit` (FIFO deque). -/
  queue : List String
  /-- `visited_urls`; a Python set, modelled as the insertion-ordered list of
  its elements (each element is inserted only when absent, so the list is the
  set and its length the set's size). -/
  visited : List String
  /-- `all_entries`. -/
  entries : List Entry
  /-- `counter` (sequential ids, starts at 1). -/
  counter : Nat
  /-- `skipped_urls`. -/
  skipped : Nat
  /-- `empty_content_urls`. -/
  emptyContent : Nat
  /-- every URL passed to `fetch_url`, in order (instrumentation). -/
  fetchLog : List String
deriving DecidableEq

/-- The placeholder title for pages with an empty extracted title. -/
def untitled : String := "Untitled Page"

/-- The `while` guard has failed: queue empty or visit bound reached. -/
def loopDone (maxUrls : Nat) (s : CrawlState) : Bool :=
  s.queue.isEmpty || maxUrls ≤ s.visited.length

/-- The `# Extract content` block of the loop body for a successfully fetched
page: `title, content = extract_content(html, current_url)` followed by the
`if title or content:` record-or-skip logic (`eval(content)` is modelled by
the verified inverse parser `parsePyContent`). -/
def recordPage (s : CrawlState) (current : String) (doc : Node) : CrawlState :=
  let (title, content) := extract_content doc
  if title ≠ "" ∨ content ≠ "" then
    match parsePyContent content with
    | some contentDict =>
      -- `has_text = any(section.get('text') for section in ...)`
      let s :=
        if !(contentDict.any (fun sec => sec.text ≠ "")) then
          { s with emptyContent := s.emptyContent + 1 }
        else s
      { s with
        entries := s.entries ++
          [⟨toString s.counter, if title = "" then untitled else title,
            current, content⟩]
        counter := s.counter + 1 }
    | none =>
      -- `except:` — still add the entry (unreachable: parsing the serialized
      -- content always succeeds, see the round-trip theorem below)
      { s with
        entries := s.entries ++
          [⟨toString s.counter, if title = "" then untitled else title,
            current, if content ≠ "" then content else "Unable to extract content"⟩]
        counter := s.counter + 1 }
  else { s with skipped := s.skipped + 1 }

/-- The `# Extract more links if we need them` block: when the bound is not
yet reached, append each extracted link whose canonical form is unvisited and
which is not literally present in the queue.  Note the asymmetry faithfully
kept from the source: the visited check canonicalizes (`link.split('#')[0]`),
the queue-membership check does not. -/
def enqueueLinks (s : CrawlState) (maxUrls : Nat) (doc : Node) (current : String) : CrawlState :=
  if s.visited.length < maxUrls then
    { s with
      queue := (extract_links doc current).foldl (fun q link =>
        if canonical link ∉ s.visited && link ∉ q then q ++ [link] else q) s.queue }
  else s

/-- One iteration of the `while urls_to_visit and len(visited_urls) < max_urls`
loop; states whose guard fails are returned unchanged. -/
def crawlStep (world : String → Option Node) (maxUrls : Nat) (s : CrawlState) : CrawlState :=
  match s.queue with
  | [] => s
  | current :: rest =>
    if maxUrls ≤ s.visited.length then s
    else if current ∈ s.visited then { s with queue := rest }
    else if canonical current ∈ s.visited then { s with queue := rest }
    else
      let s1 : CrawlState := { s with
        queue := rest
        visited := s.visited ++ [canonical current]
        fetchLog := s.fetchLog ++ [current] }
      match world current with
      | none => { s1 with skipped := s1.skipped + 1 }
      | some doc => enqueueLinks (recordPage s1 current doc) maxUrls doc current

/-- The state after the seeding phase of `main()`: the queue holds the root
URL, then — when the root fetches — the links extracted from the root page
(`urls_to_visit.extend(first_level_links)`, with no dedup checks). -/
def initState (world : String → Option Node) (root : String) : CrawlState :=
  let s : CrawlState := ⟨[root], [], [], 1, 0, 0, [root]⟩
  match world root with
  | some doc => { s with queue := s.queue ++ extract_links doc root }
  | none => s

/-- The crawl loop run to completion. -/
def crawlRun (world : String → Option Node) (maxUrls : Nat) (s : CrawlState) : CrawlState :=
  if loopDone maxUrls s then s
  else crawlRun world maxUrls (crawlStep world maxUrls s)
termination_by (maxUrls - s.visited.length, s.queue.length)
decreasing_by
  -- each iteration either only shortens the queue (already-visited skip) or
  -- adds exactly one visited element while below the bound
  rename_i h
  have hb : loopDone maxUrls s = false := Bool.not_eq_true _ ▸ Bool.of_not_eq_true h
  have h' : ¬s.queue = [] ∧ s.visited.length < maxUrls := by simpa [loopDone] using hb
  have key : ((crawlStep world maxUrls s).visited.length = s.visited.length ∧
      (crawlStep world maxUrls s).queue.length < s.queue.length) ∨
      (crawlStep world maxUrls s).visited.length = s.visited.length + 1 := by
    cases hs : s.queue with
    | nil => exact absurd hs h'.1
    | cons current rest =>
      simp only [crawlStep, hs]
      rw [if_neg (Nat.not_le.mpr h'.2)]
      by_cases h1 : current ∈ s.visited
      · rw [if_pos h1]
        exact Or.inl ⟨rfl, by simp [hs]⟩
      · rw [if_neg h1]
        by_cases h2 : canonical current ∈ s.visited
        · rw [if_pos h2]
          exact Or.inl ⟨rfl, by simp [hs]⟩
        · rw [if_neg h2]
          refine Or.inr ?_
          cases world current with
          | none => simp
          | some doc =>
            simp only [enqueueLinks, recordPage]
            rcases hec : extract_content doc with ⟨title, content⟩
            simp only [hec]
            repeat' split
            all_goals simp
  rcases key with ⟨heq, hqlt⟩ | heq
  · rw [heq]
    exact Prod.Lex.right _ hqlt
  · rw [heq]
    exact Prod.Lex.left _ _ (by omega)

/-- A full run of `main()` with the given network, seed and bound. -/
def mainRun (world : String → Option Node) (root : String) (maxUrls : Nat) : CrawlState :=
  crawlRun world maxUrls (initState world root)

/-! ## Spec-side definitions

These follow the wording of the specification / claims (not the source) and
are compared against the source-side functions in the refinement theorems. -/

/-- Claim C5's per-href resolution rule, parametrized by the scheme used for
leading-`/` hrefs: "resolving an href that starts with `/` to the base URL's
scheme plus its domain plus the href, keeping an href that already starts
with `http://` or `https://` as-is, discarding every other href". -/
def resolveHrefClaimed (scheme domain href : String) : Option String :=
  if pyStarts "/" href then some (scheme ++ "://" ++ domain ++ href)
  else if pyStarts "http://" href || pyStarts "https://" href then some href
  else none

/-- `extractLinks` exactly as claim C5 states it: resolve every anchor href
using the *base URL's* scheme, keep only same-domain results, deduplicate. -/
def extractLinksClaimed (doc : Node) (base_url : String) : List String :=
  dedupFirst
    (((hrefsOf doc).filterMap (resolveHrefClaimed (schemeOf base_url) (get_domain base_url))).filter
      (fun u => get_domain u == get_domain base_url))

/-- `extractLinks` as the code actually behaves (the amended claim): like
`extractLinksClaimed` but leading-`/` hrefs are always resolved with the
literal scheme `https`, regardless of the base URL's scheme. -/
def extractLinksHttpsSpec (doc : Node) (base_url : String) : List String :=
  dedupFirst
    (((hrefsOf doc).filterMap (resolveHrefClaimed "https" (get_domain base_url))).filter
      (fun u => get_domain u == get_domain base_url))

mutual
/-- Document-order (preorder) enumeration of all descendants of a node,
each paired with the list of its following siblings. -/
def siblingsTravNode : Node → List (Node × List Node)
  | .text _ => []
  | .element _ _ kids => siblingsTravList kids
def siblingsTravList : List Node → List (Node × List Node)
  | [] => []
  | n :: rest => (n, rest) :: (siblingsTravNode n ++ siblingsTravList rest)
end

/-- Claim C6's description of the Section built for one heading: the
space-joined stripped text of the following sibling nodes up to but not
including the next h1–h4 heading, with the sentinel substituted when that
text is empty; `none` for a non-heading or a heading with empty text. -/
def specSectionOf (p : Node × List Node) : Option Section :=
  if isHeading p.1 && getTextStrip p.1 ≠ "" then
    let c := pyJoin " "
      (((p.2.takeWhile (fun m => !isHeading m)).map getTextStrip).filter (fun t => t ≠ ""))
    some ⟨some (getTextStrip p.1), if c = "" then noContentSentinel else c⟩
  else none

/-- Claim C6's heading-delimited sectioning of a region: one Section per
nonempty-text h1–h4 heading among the region's descendants, in document
order. -/
def specHeadingSections (region : Node) : List Section :=
  (siblingsTravNode region).filterMap specSectionOf

/-! ## Concrete documents and worlds for counterexamples and witnesses -/

/-- Seed URL used by the concrete runs. -/
def exRoot : String := "https://d.com/"

/-- A page whose only link is the same-domain page `/a`. -/
def exPageRoot : Node :=
  .element "html" [] [.element "body" []
    [.element "a" [("href", "https://d.com/a")] [.text "to a"]]]

/-- A page with two links that differ only in their URL fragment. -/
def exPageFrag : Node :=
  .element "html" [] [.element "body" []
    [.element "a" [("href", "https://d.com/p#1")] [.text "one"],
     .element "a" [("href", "https://d.com/p#2")] [.text "two"]]]

/-- World for C1: the seed links to `/a`, which links to the two fragment
variants of `/p`. -/
def exWorldFrag (u : String) : Option Node :=
  if u = "https://d.com/" then some exPageRoot
  else if u = "https://d.com/a" then some exPageFrag
  else none

/-- A page with no title, no headings, no paragraphs and no text at all. -/
def exPageEmpty : Node := .element "html" [] [.element "body" [] []]

/-- World for C3/C8/C9: the seed is an entirely empty page. -/
def exWorldEmpty (u : String) : Option Node :=
  if u = "https://d.com/" then some exPageEmpty else none

/-- The `main` element of the C4 document — the document's only candidate
content container. -/
def exMainEl : Node := .element "main" [] [.element "p" [] [.text "In the main element"]]

/-- The body of the C4 document: a paragraph outside `main`, then `main`. -/
def exBodyEl : Node :=
  .element "body" [] [.element "p" [] [.text "Outside text"], exMainEl]

/-- C4 failing input: a document whose only candidate container is `main`. -/
def exDocMain : Node := .element "html" [] [exBodyEl]

/-- C5 counterexample document: one anchor with href `/foo`. -/
def exDocSlash : Node :=
  .element "html" [] [.element "body" []
    [.element "a" [("href", "/foo")] [.text "f"]]]

/-- C6 witness document: `H1("Intro")` and `H1("Details")`, each followed by
its own paragraph sibling. -/
def exDocHeadings : Node :=
  .element "html" [] [.element "body" []
    [.element "h1" [] [.text "Intro"],
     .element "p" [] [.text "First para."],
     .element "h1" [] [.text "Details"],
     .element "p" [] [.text "Second para."]]]

/-- A page whose only link is the relative `/a`. -/
def exPageOneLink : Node :=
  .element "html" [] [.element "body" []
    [.element "a" [("href", "/a")] [.text "go"],
     .element "p" [] [.text "Seed content."]]]

/-- World for C7: the seed page carries one same-domain link. -/
def exWorldOneLink (u : String) : Option Node :=
  if u = "https://d.com/" then some exPageOneLink else none

/-! ## General lemmas: strings and deduplication -/

theorem strToList_append (a b : String) : (a ++ b).toList = a.toList ++ b.toList := by
  cases a; cases b; rfl

theorem strMk_toList (s : String) : String.mk s.toList = s := by
  cases s; rfl

theorem mem_dedupFirstGo (x : String) :
    ∀ (l seen : List String), x ∈ dedupFirstGo l seen ↔ x ∈ l ∧ x ∉ seen := by
  intro l
  induction l with
  | nil => intro seen; simp [dedupFirstGo]
  | cons y ys ih =>
    intro seen
    by_cases hy : y ∈ seen
    · rw [dedupFirstGo, if_pos hy, ih]
      constructor
      · rintro ⟨h1, h2⟩; exact ⟨List.mem_cons_of_mem _ h1, h2⟩
      · rintro ⟨h1, h2⟩
        rcases List.mem_cons.mp h1 with h | h
        · exact absurd (h ▸ hy) h2
        · exact ⟨h, h2⟩
    · rw [dedupFirstGo, if_neg hy]
      simp only [List.mem_cons, ih, List.mem_append]
      constructor
      · rintro (rfl | ⟨h1, h2⟩)
        · exact ⟨Or.inl rfl, hy⟩
        · exact ⟨Or.inr h1, fun hx => h2 (Or.inl hx)⟩
      · rintro ⟨rfl | h1, h2⟩
        · exact Or.inl rfl
        · by_cases hxy : x = y
          · exact Or.inl hxy
          · exact Or.inr ⟨h1, by simp [h2, hxy]⟩

theorem mem_dedupFirst (x : String) (l : List String) : x ∈ dedupFirst l ↔ x ∈ l := by
  rw [dedupFirst, mem_dedupFirstGo]; simp

theorem nodup_dedupFirstGo : ∀ (l seen : List String), (dedupFirstGo l seen).Nodup := by
  intro l
  induction l with
  | nil => intro seen; simp [dedupFirstGo]
  | cons y ys ih =>
    intro seen
    by_cases hy : y ∈ seen
    · rw [dedupFirstGo, if_pos hy]; exact ih _
    · rw [dedupFirstGo, if_neg hy]
      refine List.nodup_cons.mpr ⟨fun hmem => ?_, ih _⟩
      have := (mem_dedupFirstGo y ys (seen ++ [y])).mp hmem
      simp at this

theorem nodup_dedupFirst (l : List String) : (dedupFirst l).Nodup :=
  nodup_dedupFirstGo l []

/-! ## extract_links refinement -/

theorem https_scheme_append (d h : String) :
    "https" ++ "://" ++ d ++ h = "https://" ++ d ++ h := by
  apply String.ext
  show ("https" ++ "://" ++ d ++ h).toList = ("https://" ++ d ++ h).toList
  simp [strToList_append]

theorem links_foldl (domain : String) :
    ∀ (hs : List String) (acc : List String),
    hs.foldl (fun acc href =>
      if pyStarts "/" href then
        let href := "https://" ++ domain ++ href
        if get_domain href == domain then acc ++ [href] else acc
      else if !(pyStarts "http://" href || pyStarts "https://" href) then acc
      else if get_domain href == domain then acc ++ [href] else acc) acc
    = acc ++ ((hs.filterMap (resolveHrefClaimed "https" domain)).filter
        (fun u => get_domain u == domain)) := by
  intro hs
  induction hs with
  | nil => intro acc; simp
  | cons h hs ih =>
    intro acc
    rw [List.foldl_cons, ih, List.filterMap_cons]
    by_cases h1 : pyStarts "/" h
    · simp only [resolveHrefClaimed, h1, if_pos, if_true]
      rw [https_scheme_append]
      by_cases h2 : get_domain ("https://" ++ domain ++ h) == domain
      · simp [h1, h2, List.filter_cons]
      · simp [h1, h2, List.filter_cons]
    · by_cases h2 : pyStarts "http://" h || pyStarts "https://" h
      · simp only [resolveHrefClaimed, h1, h2, if_false, if_true, Bool.not_true]
        by_cases h3 : get_domain h == domain
        · simp [h1, h2, h3, List.filter_cons]
        · simp [h1, h2, h3, List.filter_cons]
      · simp [resolveHrefClaimed, h1, h2]

theorem extract_links_eq_httpsSpec (doc : Node) (base_url : String) :
    extract_links doc base_url = extractLinksHttpsSpec doc base_url := by
  rw [extract_links, extractLinksHttpsSpec, links_foldl]
  simp

/-! ## Round trip: `eval(str(content_dict))` recovers the section list -/

theorem parsePyStrBody_close (q : Char) (X : List Char) :
    parsePyStrBody q (q :: X) = some ([], X) := by
  rw [parsePyStrBody.eq_def]
  simp

theorem parsePyStrBody_esc (q e : Char) (X : List Char) (hbs : ¬('\\' = q)) :
    parsePyStrBody q ('\\' :: e :: X) =
      (parsePyStrBody q X).map (fun p =>
        ((if e = 'n' then '\n' else if e = 'r' then '\x0d' else
          if e = 't' then '\t' else e) :: p.1, p.2)) := by
  rw [parsePyStrBody.eq_def]
  simp [hbs]

theorem parsePyStrBody_plain (q c : Char) (X : List Char) (h1 : ¬(c = q)) (h2 : ¬(c = '\\')) :
    parsePyStrBody q (c :: X) = (parsePyStrBody q X).map (fun p => (c :: p.1, p.2)) := by
  rw [parsePyStrBody.eq_def]
  simp [h1, h2]

theorem parsePyStrBody_rt (q : Char) (hq : q = '\'' ∨ q = '"') :
    ∀ (cs rest : List Char),
    parsePyStrBody q (cs.flatMap (pyEscChar q) ++ q :: rest) = some (cs, rest) := by
  have hbs : ¬('\\' = q) := by rcases hq with rfl | rfl <;> decide
  have hqn : ¬(q = 'n') := by rcases hq with rfl | rfl <;> decide
  have hqr : ¬(q = 'r') := by rcases hq with rfl | rfl <;> decide
  have hqt : ¬(q = 't') := by rcases hq with rfl | rfl <;> decide
  intro cs
  induction cs with
  | nil =>
    intro rest
    show parsePyStrBody q (q :: rest) = some ([], rest)
    rw [parsePyStrBody_close]
  | cons c cs ih =>
    intro rest
    have hstep : (c :: cs).flatMap (pyEscChar q) = pyEscChar q c ++ cs.flatMap (pyEscChar q) := rfl
    rw [hstep, List.append_assoc, pyEscChar]
    by_cases h1 : c = '\\'
    · rw [if_pos h1, h1]
      show parsePyStrBody q ('\\' :: '\\' :: (cs.flatMap (pyEscChar q) ++ q :: rest)) = _
      rw [parsePyStrBody_esc q '\\' _ hbs, ih]
      simp
    · rw [if_neg h1]
      by_cases h2 : c = q
      · rw [if_pos h2, h2]
        show parsePyStrBody q ('\\' :: q :: (cs.flatMap (pyEscChar q) ++ q :: rest)) = _
        rw [parsePyStrBody_esc q q _ hbs, ih]
        simp [hqn, hqr, hqt]
      · rw [if_neg h2]
        by_cases h3 : c = '\n'
        · rw [if_pos h3, h3]
          show parsePyStrBody q ('\\' :: 'n' :: (cs.flatMap (pyEscChar q) ++ q :: rest)) = _
          rw [parsePyStrBody_esc q 'n' _ hbs, ih]
          simp
        · rw [if_neg h3]
          by_cases h4 : c = '\x0d'
          · rw [if_pos h4, h4]
            show parsePyStrBody q ('\\' :: 'r' :: (cs.flatMap (pyEscChar q) ++ q :: rest)) = _
            rw [parsePyStrBody_esc q 'r' _ hbs, ih]
            simp
          · rw [if_neg h4]
            by_cases h5 : c = '\t'
            · rw [if_pos h5, h5]
              show parsePyStrBody q ('\\' :: 't' :: (cs.flatMap (pyEscChar q) ++ q :: rest)) = _
              rw [parsePyStrBody_esc q 't' _ hbs, ih]
              simp
            · rw [if_neg h5]
              show parsePyStrBody q (c :: (cs.flatMap (pyEscChar q) ++ q :: rest)) = _
              rw [parsePyStrBody_plain q c _ h2 h1, ih]
              simp

theorem parsePyStr_cons (c : Char) (rest : List Char) :
    parsePyStr (c :: rest) =
      if c = '\'' ∨ c = '"' then (parsePyStrBody c rest).map (fun p => (String.mk p.1, p.2))
      else none := rfl

theorem parsePyStr_rt (s : String) (rest : List Char) :
    parsePyStr ((pyReprStr s).toList ++ rest) = some (s, rest) := by
  by_cases hq : '\'' ∈ s.toList ∧ '"' ∉ s.toList
  · have hqc : pyQuoteChar s.toList = '"' := by rw [pyQuoteChar, if_pos hq]
    show parsePyStr ((pyQuoteChar s.toList ::
      (s.toList.flatMap (pyEscChar (pyQuoteChar s.toList)) ++ [pyQuoteChar s.toList])) ++ rest) =
      some (s, rest)
    rw [hqc, List.cons_append, parsePyStr_cons, if_pos (Or.inr rfl), List.append_assoc,
      List.singleton_append, parsePyStrBody_rt '"' (Or.inr rfl)]
    simp [strMk_toList]
  · have hqc : pyQuoteChar s.toList = '\'' := by rw [pyQuoteChar, if_neg hq]
    show parsePyStr ((pyQuoteChar s.toList ::
      (s.toList.flatMap (pyEscChar (pyQuoteChar s.toList)) ++ [pyQuoteChar s.toList])) ++ rest) =
      some (s, rest)
    rw [hqc, List.cons_append, parsePyStr_cons, if_pos (Or.inl rfl), List.append_assoc,
      List.singleton_append, parsePyStrBody_rt '\'' (Or.inl rfl)]
    simp [strMk_toList]

theorem dropLit_rt : ∀ (lit rest : List Char), dropLit lit (lit ++ rest) = some rest := by
  intro lit
  induction lit with
  | nil => intro rest; rfl
  | cons c cs ih => intro rest; simp [dropLit, ih]

theorem parsePySection_rt (sec : Section) (rest : List Char) :
    parsePySection ((pyReprSection sec).toList ++ rest) = some (sec, rest) := by
  rcases sec with ⟨h, t⟩
  cases h with
  | some hd =>
    have hsplit : (pyReprSection ⟨some hd, t⟩).toList ++ rest =
        "\x7b'header': ".toList ++ ((pyReprStr hd).toList ++ (", 'text': ".toList ++
          ((pyReprStr t).toList ++ ("\x7d".toList ++ rest)))) := by
      rw [pyReprSection]
      simp [strToList_append]
    rw [hsplit]
    simp only [parsePySection, dropLit_rt, parsePyStr_rt]
  | none =>
    have hsplit : (pyReprSection ⟨none, t⟩).toList ++ rest =
        "\x7b'text': ".toList ++ ((pyReprStr t).toList ++ ("\x7d".toList ++ rest)) := by
      rw [pyReprSection]
      simp [strToList_append]
    have hhead : dropLit "\x7b'header': ".toList
        ("\x7b'text': ".toList ++ ((pyReprStr t).toList ++ ("\x7d".toList ++ rest))) = none := by
      have h1 : "\x7b'header': ".toList =
        '\x7b' :: '\'' :: 'h' :: 'e' :: 'a' :: 'd' :: 'e' :: 'r' :: '\'' :: ':' :: ' ' :: [] := rfl
      have h2 : "\x7b'text': ".toList =
        '\x7b' :: '\'' :: 't' :: 'e' :: 'x' :: 't' :: '\'' :: ':' :: ' ' :: [] := rfl
      rw [h1, h2]
      simp [dropLit]
    rw [hsplit]
    simp only [parsePySection, hhead, dropLit_rt, parsePyStr_rt]

theorem pyReprSection_head (sec : Section) :
    ∃ tl, (pyReprSection sec).toList = '\x7b' :: tl := by
  rcases sec with ⟨h, t⟩
  cases h with
  | some hd =>
    refine ⟨"'header': ".toList ++ ((pyReprStr hd).toList ++ (", 'text': ".toList ++
      ((pyReprStr t).toList ++ "\x7d".toList))), ?_⟩
    rw [pyReprSection]
    simp [strToList_append]
  | none =>
    refine ⟨"'text': ".toList ++ ((pyReprStr t).toList ++ "\x7d".toList), ?_⟩
    rw [pyReprSection]
    simp [strToList_append]

theorem pyJoinSections_head (sec : Section) (secs : List Section) :
    ∃ tl, (pyJoin ", " ((sec :: secs).map pyReprSection)).toList = '\x7b' :: tl := by
  obtain ⟨tl, htl⟩ := pyReprSection_head sec
  cases secs with
  | nil => exact ⟨tl, htl⟩
  | cons sec2 more =>
    refine ⟨tl ++ (", ".toList ++ (pyJoin ", " ((sec2 :: more).map pyReprSection)).toList), ?_⟩
    show ((pyReprSection sec ++ ", ") ++ pyJoin ", " ((sec2 :: more).map pyReprSection)).toList = _
    rw [strToList_append, strToList_append, htl]
    simp

theorem pyJoinSections_length (sec : Section) :
    ∀ (secs : List Section),
    (sec :: secs).length ≤ (pyJoin ", " ((sec :: secs).map pyReprSection)).toList.length := by
  intro secs
  induction secs generalizing sec with
  | nil =>
    obtain ⟨tl, htl⟩ := pyReprSection_head sec
    show 1 ≤ (pyReprSection sec).toList.length
    rw [htl]
    simp
  | cons sec2 more ih =>
    obtain ⟨tl, htl⟩ := pyReprSection_head sec
    have h2 := ih sec2
    show (sec :: sec2 :: more).length ≤
      ((pyReprSection sec ++ ", ") ++ pyJoin ", " ((sec2 :: more).map pyReprSection)).toList.length
    rw [strToList_append, strToList_append, htl]
    simp only [List.length_append, List.length_cons]
    simp at h2 ⊢
    omega

theorem parsePySections_rt (sec : Section) :
    ∀ (secs : List Section) (fuel : Nat) (rest : List Char),
    (sec :: secs).length ≤ fuel →
    parsePySections fuel ((pyJoin ", " ((sec :: secs).map pyReprSection)).toList ++ ']' :: rest) =
      some (sec :: secs, rest) := by
  intro secs
  induction secs generalizing sec with
  | nil =>
    intro fuel rest hf
    obtain ⟨f, rfl⟩ : ∃ f, fuel = f + 1 := ⟨fuel - 1, by simp at hf; omega⟩
    show parsePySections (f + 1) ((pyReprSection sec).toList ++ ']' :: rest) = _
    simp only [parsePySections, parsePySection_rt]
    have hdrop : dropLit [']'] (']' :: rest) = some rest := dropLit_rt [']'] rest
    rw [show "]".toList = ([']'] : List Char) from rfl, hdrop]
  | cons sec2 more ih =>
    intro fuel rest hf
    obtain ⟨f, rfl⟩ : ∃ f, fuel = f + 1 := ⟨fuel - 1, by simp at hf; omega⟩
    have hsplit : (pyJoin ", " ((sec :: sec2 :: more).map pyReprSection)).toList ++ ']' :: rest =
        (pyReprSection sec).toList ++ (", ".toList ++
          ((pyJoin ", " ((sec2 :: more).map pyReprSection)).toList ++ ']' :: rest)) := by
      show ((pyReprSection sec ++ ", ") ++ pyJoin ", " ((sec2 :: more).map pyReprSection)).toList
        ++ ']' :: rest = _
      simp [strToList_append]
    rw [hsplit]
    simp only [parsePySections, parsePySection_rt]
    have hno : dropLit "]".toList (", ".toList ++
        ((pyJoin ", " ((sec2 :: more).map pyReprSection)).toList ++ ']' :: rest)) = none := by
      rw [show "]".toList = [']'] from rfl, show ", ".toList = [',', ' '] from rfl]
      simp [dropLit]
    have hcomma : dropLit ", ".toList (", ".toList ++
        ((pyJoin ", " ((sec2 :: more).map pyReprSection)).toList ++ ']' :: rest)) =
        some ((pyJoin ", " ((sec2 :: more).map pyReprSection)).toList ++ ']' :: rest) :=
      dropLit_rt _ _
    rw [hno, hcomma]
    show Option.map (fun p => (sec :: p.1, p.2))
      (parsePySections f ((pyJoin ", " ((sec2 :: more).map pyReprSection)).toList ++ ']' :: rest)) =
      some (sec :: sec2 :: more, rest)
    rw [ih sec2 f rest (by simp at hf ⊢; omega)]
    rfl

theorem parsePyContent_rt (secs : List Section) :
    parsePyContent (pyReprContent secs) = some secs := by
  cases secs with
  | nil => decide
  | cons sec more =>
    rw [parsePyContent]
    have hsplit : (pyReprContent (sec :: more)).toList =
        "\x7b'sections': [".toList ++
          ((pyJoin ", " ((sec :: more).map pyReprSection)).toList ++ ']' :: '\x7d' :: []) := by
      rw [pyReprContent]
      simp [strToList_append]
    rw [hsplit]
    simp only [dropLit_rt]
    obtain ⟨tl, htl⟩ := pyJoinSections_head sec more
    have hno : dropLit "]\x7d".toList
        ((pyJoin ", " ((sec :: more).map pyReprSection)).toList ++ ']' :: '\x7d' :: []) = none := by
      rw [htl, show "]\x7d".toList = [']', '\x7d'] from rfl]
      simp [dropLit]
    simp only [hno]
    have hfuel : (sec :: more).length ≤
        ((pyJoin ", " ((sec :: more).map pyReprSection)).toList ++ ']' :: '\x7d' :: []).length := by
      have := pyJoinSections_length sec more
      simp at this ⊢
      omega
    have hsecs := parsePySections_rt sec more
      ((pyJoin ", " ((sec :: more).map pyReprSection)).toList ++ ']' :: '\x7d' :: []).length
      ['\x7d'] hfuel
    simp only [hsecs]
    have hdrop : dropLit "\x7d".toList ['\x7d'] = some [] := by
      rw [show "\x7d".toList = ['\x7d'] from rfl]
      exact dropLit_rt ['\x7d'] []
    simp only [hdrop]
    rfl

theorem pyReprContent_ne_empty (secs : List Section) : pyReprContent secs ≠ "" := by
  intro h
  have h2 : (pyReprContent secs).toList ≠ [] := by
    rw [pyReprContent]
    rw [strToList_append, strToList_append]
    simp
  exact h2 (by rw [h]; rfl)

/-! ## Crawl-step characterization -/

/-- The record step always appends exactly one entry for a fetched page: the
serialized content is never empty (so `if title or content:` always takes the
record branch) and `eval` always recovers the section list (round trip). -/
theorem recordPage_eq (s : CrawlState) (current : String) (doc : Node) :
    recordPage s current doc =
      { s with
        emptyContent := s.emptyContent +
          (if (extract_sections doc).any (fun sec => sec.text ≠ "") then 0 else 1)
        entries := s.entries ++
          [⟨toString s.counter,
            (if extractTitle doc = "" then untitled else extractTitle doc),
            current, pyReprContent (extract_sections doc)⟩]
        counter := s.counter + 1 } := by
  rw [recordPage]
  simp only [extract_content]
  rw [if_pos (Or.inr (pyReprContent_ne_empty _))]
  rw [parsePyContent_rt]
  by_cases hany : (extract_sections doc).any (fun sec => sec.text ≠ "")
  · have h' : ¬∀ x ∈ extract_sections doc, x.text = "" := by simpa using hany
    simp only [if_neg h', hany]
    simp
  · have h' : ∀ x ∈ extract_sections doc, x.text = "" := by simpa using hany
    simp only [if_pos h', hany]
    simp

theorem foldl_enqueue_extends (visited : List String) :
    ∀ (links q : List String), ∃ t,
      links.foldl (fun q link =>
        if canonical link ∉ visited && link ∉ q then q ++ [link] else q) q = q ++ t := by
  intro links
  induction links with
  | nil => intro q; exact ⟨[], by simp⟩
  | cons l ls ih =>
    intro q
    rw [List.foldl_cons]
    by_cases hc : canonical l ∉ visited && l ∉ q
    · obtain ⟨t, ht⟩ := ih (q ++ [l])
      exact ⟨[l] ++ t, by rw [if_pos hc, ht, List.append_assoc]⟩
    · obtain ⟨t, ht⟩ := ih q
      exact ⟨t, by rw [if_neg hc, ht]⟩

/-- The link-enqueueing step only ever appends to the queue; every other
field is untouched. -/
theorem enqueueLinks_extends (s : CrawlState) (maxUrls : Nat) (doc : Node) (current : String) :
    ∃ t, enqueueLinks s maxUrls doc current = { s with queue := s.queue ++ t } := by
  rw [enqueueLinks]
  split
  · obtain ⟨t, ht⟩ := foldl_enqueue_extends s.visited (extract_links doc current) s.queue
    exact ⟨t, by rw [ht]⟩
  · exact ⟨[], by simp⟩

/-- Full case analysis of one loop iteration. -/
theorem crawlStep_cases (world : String → Option Node) (maxUrls : Nat) (s : CrawlState) :
    crawlStep world maxUrls s = s ∨
    (∃ current rest, s.queue = current :: rest ∧
      (current ∈ s.visited ∨ canonical current ∈ s.visited) ∧
      crawlStep world maxUrls s = { s with queue := rest }) ∨
    (∃ current rest, s.queue = current :: rest ∧ s.visited.length < maxUrls ∧
      current ∉ s.visited ∧ canonical current ∉ s.visited ∧
      ((world current = none ∧
        crawlStep world maxUrls s =
          { s with
            queue := rest
            visited := s.visited ++ [canonical current]
            fetchLog := s.fetchLog ++ [current]
            skipped := s.skipped + 1 }) ∨
       (∃ doc, world current = some doc ∧
        crawlStep world maxUrls s =
          enqueueLinks (recordPage { s with
            queue := rest
            visited := s.visited ++ [canonical current]
            fetchLog := s.fetchLog ++ [current] } current doc) maxUrls doc current))) := by
  cases hs : s.queue with
  | nil => exact Or.inl (by simp only [crawlStep, hs])
  | cons current rest =>
    by_cases hb : maxUrls ≤ s.visited.length
    · refine Or.inl ?_
      simp only [crawlStep, hs]
      rw [if_pos hb]
    · by_cases h1 : current ∈ s.visited
      · refine Or.inr (Or.inl ⟨current, rest, rfl, Or.inl h1, ?_⟩)
        simp only [crawlStep, hs]
        rw [if_neg hb, if_pos h1]
      · by_cases h2 : canonical current ∈ s.visited
        · refine Or.inr (Or.inl ⟨current, rest, rfl, Or.inr h2, ?_⟩)
          simp only [crawlStep, hs]
          rw [if_neg hb, if_neg h1, if_pos h2]
        · refine Or.inr (Or.inr ⟨current, rest, rfl, Nat.lt_of_not_le hb, h1, h2, ?_⟩)
          cases hw : world current with
          | none =>
            refine Or.inl ⟨rfl, ?_⟩
            simp only [crawlStep, hs]
            rw [if_neg hb, if_neg h1, if_neg h2, hw]
          | some doc =>
            refine Or.inr ⟨doc, rfl, ?_⟩
            simp only [crawlStep, hs]
            rw [if_neg hb, if_neg h1, if_neg h2, hw]

/-- Generic invariant-preservation along function iteration. -/
theorem iterate_invariant {α : Type} (f : α → α) (P : α → Prop) (hf : ∀ x, P x → P (f x)) :
    ∀ (n : Nat) (x : α), P x → P (f^[n] x) := by
  intro n
  induction n with
  | zero => intro x hx; simpa using hx
  | succ n ih =>
    intro x hx
    rw [Function.iterate_succ_apply]
    exact ih _ (hf _ hx)

/-- The completed run is some iterate of the step function: every property
preserved by `crawlStep` and true of the initial state holds of `crawlRun`'s
result (and the run does terminate). -/
theorem crawlRun_eq_iterate (world : String → Option Node) (maxUrls : Nat) (s : CrawlState) :
    ∃ n, crawlRun world maxUrls s = (crawlStep world maxUrls)^[n] s := by
  induction s using crawlRun.induct world maxUrls with
  | case1 s hdone =>
    refine ⟨0, ?_⟩
    rw [crawlRun, if_pos hdone]
    rfl
  | case2 s hdone ih =>
    obtain ⟨n, hn⟩ := ih
    refine ⟨n + 1, ?_⟩
    rw [crawlRun, if_neg hdone, hn, Function.iterate_succ_apply]

/-! ## Field lemmas for the step components -/

theorem recordPage_visited (s : CrawlState) (c : String) (d : Node) :
    (recordPage s c d).visited = s.visited := by rw [recordPage_eq]

theorem recordPage_fetchLog (s : CrawlState) (c : String) (d : Node) :
    (recordPage s c d).fetchLog = s.fetchLog := by rw [recordPage_eq]

theorem recordPage_queue (s : CrawlState) (c : String) (d : Node) :
    (recordPage s c d).queue = s.queue := by rw [recordPage_eq]

theorem recordPage_skipped (s : CrawlState) (c : String) (d : Node) :
    (recordPage s c d).skipped = s.skipped := by rw [recordPage_eq]

theorem enqueueLinks_visited (s : CrawlState) (m : Nat) (d : Node) (c : String) :
    (enqueueLinks s m d c).visited = s.visited := by
  obtain ⟨t, ht⟩ := enqueueLinks_extends s m d c
  rw [ht]

theorem enqueueLinks_fetchLog (s : CrawlState) (m : Nat) (d : Node) (c : String) :
    (enqueueLinks s m d c).fetchLog = s.fetchLog := by
  obtain ⟨t, ht⟩ := enqueueLinks_extends s m d c
  rw [ht]

theorem enqueueLinks_entries (s : CrawlState) (m : Nat) (d : Node) (c : String) :
    (enqueueLinks s m d c).entries = s.entries := by
  obtain ⟨t, ht⟩ := enqueueLinks_extends s m d c
  rw [ht]

theorem enqueueLinks_counter (s : CrawlState) (m : Nat) (d : Node) (c : String) :
    (enqueueLinks s m d c).counter = s.counter := by
  obtain ⟨t, ht⟩ := enqueueLinks_extends s m d c
  rw [ht]

theorem enqueueLinks_skipped (s : CrawlState) (m : Nat) (d : Node) (c : String) :
    (enqueueLinks s m d c).skipped = s.skipped := by
  obtain ⟨t, ht⟩ := enqueueLinks_extends s m d c
  rw [ht]

theorem enqueueLinks_emptyContent (s : CrawlState) (m : Nat) (d : Node) (c : String) :
    (enqueueLinks s m d c).emptyContent = s.emptyContent := by
  obtain ⟨t, ht⟩ := enqueueLinks_extends s m d c
  rw [ht]

/-- Visited-set / fetch-log behaviour of one iteration: either both are
untouched, or the head of the queue is fetched — its canonical URL was
unvisited, is appended to the visited set, and the raw URL is appended to the
fetch log. -/
theorem crawlStep_visited_fetchLog (world : String → Option Node) (maxUrls : Nat)
    (s : CrawlState) :
    ((crawlStep world maxUrls s).visited = s.visited ∧
     (crawlStep world maxUrls s).fetchLog = s.fetchLog) ∨
    (∃ current rest, s.queue = current :: rest ∧ s.visited.length < maxUrls ∧
      current ∉ s.visited ∧ canonical current ∉ s.visited ∧
      (crawlStep world maxUrls s).visited = s.visited ++ [canonical current] ∧
      (crawlStep world maxUrls s).fetchLog = s.fetchLog ++ [current]) := by
  rcases crawlStep_cases world maxUrls s with heq | ⟨c, r, hq, hmem, heq⟩ |
    ⟨c, r, hq, hlt, h1, h2, hrest⟩
  · exact Or.inl (by rw [heq]; exact ⟨rfl, rfl⟩)
  · exact Or.inl (by rw [heq]; exact ⟨rfl, rfl⟩)
  · refine Or.inr ⟨c, r, hq, hlt, h1, h2, ?_⟩
    rcases hrest with ⟨hw, heq⟩ | ⟨doc, hw, heq⟩
    · rw [heq]
      exact ⟨rfl, rfl⟩
    · rw [heq, enqueueLinks_visited, recordPage_visited, enqueueLinks_fetchLog,
        recordPage_fetchLog]
      exact ⟨rfl, rfl⟩

/-- Entries / counter behaviour of one iteration: either untouched, or
exactly one entry for the fetched page is appended and the counter advances.
The appended entry's `url` field is the dequeued queue head `current` stored
verbatim, while the visited set receives its canonical form and the fetch
log the same raw string. -/
theorem crawlStep_entries (world : String → Option Node) (maxUrls : Nat) (s : CrawlState) :
    ((crawlStep world maxUrls s).entries = s.entries ∧
     (crawlStep world maxUrls s).counter = s.counter) ∨
    (∃ current rest doc, s.queue = current :: rest ∧ world current = some doc ∧
      (crawlStep world maxUrls s).entries = s.entries ++
        [⟨toString s.counter,
          (if extractTitle doc = "" then untitled else extractTitle doc),
          current, pyReprContent (extract_sections doc)⟩] ∧
      (crawlStep world maxUrls s).counter = s.counter + 1 ∧
      (crawlStep world maxUrls s).fetchLog = s.fetchLog ++ [current] ∧
      (crawlStep world maxUrls s).visited = s.visited ++ [canonical current]) := by
  rcases crawlStep_cases world maxUrls s with heq | ⟨c, r, hq, hmem, heq⟩ |
    ⟨c, r, hq, hlt, h1, h2, hrest⟩
  · exact Or.inl (by rw [heq]; exact ⟨rfl, rfl⟩)
  · exact Or.inl (by rw [heq]; exact ⟨rfl, rfl⟩)
  · rcases hrest with ⟨hw, heq⟩ | ⟨doc, hw, heq⟩
    · exact Or.inl (by rw [heq]; exact ⟨rfl, rfl⟩)
    · refine Or.inr ⟨c, r, doc, hq, hw, ?_, ?_, ?_, ?_⟩
      · rw [heq, enqueueLinks_entries, recordPage_eq]
      · rw [heq, enqueueLinks_counter, recordPage_eq]
      · rw [heq, enqueueLinks_fetchLog, recordPage_fetchLog]
      · rw [heq, enqueueLinks_visited, recordPage_visited]

theorem initState_visited (world : String → Option Node) (root : String) :
    (initState world root).visited = [] := by
  rw [initState]
  cases world root <;> rfl

theorem initState_fetchLog (world : String → Option Node) (root : String) :
    (initState world root).fetchLog = [root] := by
  rw [initState]
  cases world root <;> rfl

theorem initState_entries (world : String → Option Node) (root : String) :
    (initState world root).entries = [] := by
  rw [initState]
  cases world root <;> rfl

theorem initState_counter (world : String → Option Node) (root : String) :
    (initState world root).counter = 1 := by
  rw [initState]
  cases world root <;> rfl

/-! ## Claim theorems -/

/-- C2 — Visit bound (confirmed): at every reachable state of a run (the
`n`-th iterate of the loop body from the seeded state) the visited set has at
most `maxUrls` elements, the visited set only ever grows (each step appends,
never removes), and the bound also holds of the final state of the run. -/
theorem C2_visit_bound (world : String → Option Node) (root : String) (maxUrls n : Nat) :
    ((crawlStep world maxUrls)^[n] (initState world root)).visited.length ≤ maxUrls ∧
    (∃ l, ((crawlStep world maxUrls)^[n + 1] (initState world root)).visited =
      ((crawlStep world maxUrls)^[n] (initState world root)).visited ++ l) ∧
    (mainRun world root maxUrls).visited.length ≤ maxUrls := by
  have hpres : ∀ t : CrawlState, t.visited.length ≤ maxUrls →
      (crawlStep world maxUrls t).visited.length ≤ maxUrls := by
    intro t ht
    rcases crawlStep_visited_fetchLog world maxUrls t with ⟨hv, -⟩ |
      ⟨c, r, hq, hlt, h1, h2, hv, -⟩
    · rw [hv]; exact ht
    · rw [hv]; simp; omega
  have hinit : (initState world root).visited.length ≤ maxUrls := by
    rw [initState_visited]; simp
  have hbound := iterate_invariant (crawlStep world maxUrls)
    (fun t => t.visited.length ≤ maxUrls) hpres n (initState world root) hinit
  refine ⟨hbound, ?_, ?_⟩
  · rw [Function.iterate_succ_apply']
    rcases crawlStep_visited_fetchLog world maxUrls
      ((crawlStep world maxUrls)^[n] (initState world root)) with ⟨hv, -⟩ |
      ⟨c, r, hq, hlt, h1, h2, hv, -⟩
    · exact ⟨[], by rw [hv]; simp⟩
    · exact ⟨[canonical c], hv⟩
  · obtain ⟨m, hm⟩ := crawlRun_eq_iterate world maxUrls (initState world root)
    rw [mainRun, hm]
    exact iterate_invariant (crawlStep world maxUrls)
      (fun t => t.visited.length ≤ maxUrls) hpres m (initState world root) hinit

/-- C9 — amended fetch-count bound: within the loop every URL is fetched at
most once (the visited check precedes the fetch), but the seed URL is fetched
once more by the pre-loop seeding, so its per-run total is two; every other
URL is fetched at most once per run.  Holds at every reachable state and at
the end of the run. -/
theorem C9_amended_fetch_bound (world : String → Option Node) (root : String)
    (maxUrls : Nat) (u : String) :
    (∀ n, ((crawlStep world maxUrls)^[n] (initState world root)).fetchLog.count u ≤
      (if u = root then 2 else 1)) ∧
    (mainRun world root maxUrls).fetchLog.count u ≤ (if u = root then 2 else 1) := by
  set P : CrawlState → Prop := fun t =>
    t.fetchLog.count u ≤ (if canonical u ∈ t.visited then 1 else 0) +
      (if u = root then 1 else 0) with hP
  have hpres : ∀ t, P t → P (crawlStep world maxUrls t) := by
    intro t ht
    rcases crawlStep_visited_fetchLog world maxUrls t with ⟨hv, hf⟩ |
      ⟨c, r, hq, hlt, h1, h2, hv, hf⟩
    · simp only [hP] at ht ⊢
      rw [hv, hf]
      exact ht
    · simp only [hP] at ht ⊢
      rw [hv, hf, List.count_append]
      by_cases hu : u = c
      · subst hu
        have hind : canonical u ∉ t.visited := h2
        rw [if_neg hind] at ht
        have : canonical u ∈ t.visited ++ [canonical u] := by simp
        rw [if_pos this]
        simp at ht ⊢
        omega
      · have hcount : List.count u [c] = 0 := by
          simp [List.count_singleton]
          exact fun h => absurd h.symm hu
        rw [hcount]
        have hmono : (if canonical u ∈ t.visited then 1 else 0) ≤
            (if canonical u ∈ t.visited ++ [canonical c] then 1 else 0) := by
          by_cases hm : canonical u ∈ t.visited
          · rw [if_pos hm, if_pos (by simp [hm])]
          · rw [if_neg hm]; simp
        omega
  have hinit : P (initState world root) := by
    simp only [hP, initState_visited, initState_fetchLog]
    by_cases hu : u = root
    · subst hu; simp
    · rw [if_neg hu]
      have : List.count u [root] = 0 := by
        simp [List.count_singleton]
        exact fun h => absurd h.symm hu
      rw [this]
      simp
  have hfinal : ∀ t, P t → t.fetchLog.count u ≤ (if u = root then 2 else 1) := by
    intro t ht
    simp only [hP] at ht
    by_cases hu : u = root
    · rw [if_pos hu] at ht ⊢
      by_cases hm : canonical u ∈ t.visited
      · rw [if_pos hm] at ht; omega
      · rw [if_neg hm] at ht; omega
    · rw [if_neg hu] at ht ⊢
      by_cases hm : canonical u ∈ t.visited
      · rw [if_pos hm] at ht; omega
      · rw [if_neg hm] at ht; omega
  constructor
  · intro n
    exact hfinal _ (iterate_invariant (crawlStep world maxUrls) P hpres n _ hinit)
  · obtain ⟨m, hm⟩ := crawlRun_eq_iterate world maxUrls (initState world root)
    rw [mainRun, hm]
    exact hfinal _ (iterate_invariant (crawlStep world maxUrls) P hpres m _ hinit)

/-- C1 — amended dedup invariant: the loop never fetches the same
CanonicalURL twice — at every reachable state (and at the end of the run) the
canonical forms of the URLs fetched by the loop (the fetch log minus the
pre-loop seed fetch) are pairwise distinct.  (The queue itself may
temporarily hold two fragment-variants of one CanonicalURL, see the
counterexample.) -/
theorem C1_amended_canonical_fetch_once (world : String → Option Node) (root : String)
    (maxUrls : Nat) :
    (∀ n, ((((crawlStep world maxUrls)^[n] (initState world root)).fetchLog.drop 1).map
      canonical).Nodup) ∧
    ((((mainRun world root maxUrls).fetchLog.drop 1).map canonical).Nodup) := by
  set P : CrawlState → Prop := fun t =>
    ((t.fetchLog.drop 1).map canonical).Nodup ∧
    (∀ v ∈ t.fetchLog.drop 1, canonical v ∈ t.visited) ∧ t.fetchLog ≠ [] with hP
  have hpres : ∀ t, P t → P (crawlStep world maxUrls t) := by
    intro t ht
    rcases crawlStep_visited_fetchLog world maxUrls t with ⟨hv, hf⟩ |
      ⟨c, r, hq, hlt, h1, h2, hv, hf⟩
    · simp only [hP] at ht ⊢
      rw [hv, hf]
      exact ht
    · simp only [hP] at ht ⊢
      obtain ⟨hnd, hmem, hne⟩ := ht
      have hdrop : (t.fetchLog ++ [c]).drop 1 = t.fetchLog.drop 1 ++ [c] := by
        cases hfl : t.fetchLog with
        | nil => exact absurd hfl hne
        | cons x xs => simp [hfl]
      rw [hv, hf, hdrop]
      refine ⟨?_, ?_, by simp⟩
      · rw [List.map_append]
        simp only [List.map_cons, List.map_nil]
        rw [List.nodup_append]
        refine ⟨hnd, List.nodup_singleton _, ?_⟩
        intro x hx
        simp only [List.mem_singleton]
        obtain ⟨v, hv', rfl⟩ := List.mem_map.mp hx
        intro hcontra
        exact h2 (hcontra ▸ hmem v hv')
      · intro v hvmem
        rcases List.mem_append.mp hvmem with hvm | hvm
        · exact List.mem_append.mpr (Or.inl (hmem v hvm))
        · rw [List.mem_singleton.mp hvm]
          exact List.mem_append.mpr (Or.inr (by simp))
  have hinit : P (initState world root) := by
    simp only [hP, initState_visited, initState_fetchLog]
    refine ⟨by simp, by simp, by simp⟩
  constructor
  · intro n
    exact (iterate_invariant (crawlStep world maxUrls) P hpres n _ hinit).1
  · obtain ⟨m, hm⟩ := crawlRun_eq_iterate world maxUrls (initState world root)
    rw [mainRun, hm]
    exact (iterate_invariant (crawlStep world maxUrls) P hpres m _ hinit).1

/-- C8 — Output record shape (confirmed): at every reachable state of a run,
and in the final output list, every emitted record has a string id encoding a
positive integer, a `url` field holding the original URL exactly as it was
dequeued and fetched (membership in the fetch log of raw fetched URLs, with
only its fragment-stripped canonical form entering the visited set), and a
content (`text`) field that is the serialization of a Section sequence a
consumer can parse back (via the verified inverse parser) into exactly that
Section sequence.  The third conjunct pins the url field at step level: the
record built for a fetched page stores the dequeued queue head `current`
verbatim, not its canonicalized form. -/
theorem C8_record_shape (world : String → Option Node) (root : String) (maxUrls : Nat) :
    (∀ n, ∀ e ∈ ((crawlStep world maxUrls)^[n] (initState world root)).entries,
      (∃ k, 1 ≤ k ∧ e.id = toString k) ∧
      (e.url ∈ ((crawlStep world maxUrls)^[n] (initState world root)).fetchLog ∧
        canonical e.url ∈ ((crawlStep world maxUrls)^[n] (initState world root)).visited) ∧
      (∃ secs, e.text = pyReprContent secs ∧ parsePyContent e.text = some secs)) ∧
    (∀ e ∈ (mainRun world root maxUrls).entries,
      (∃ k, 1 ≤ k ∧ e.id = toString k) ∧
      (e.url ∈ (mainRun world root maxUrls).fetchLog ∧
        canonical e.url ∈ (mainRun world root maxUrls).visited) ∧
      (∃ secs, e.text = pyReprContent secs ∧ parsePyContent e.text = some secs)) ∧
    (∀ (s : CrawlState) (current : String) (rest : List String) (doc : Node),
      s.queue = current :: rest → s.visited.length < maxUrls →
      current ∉ s.visited → canonical current ∉ s.visited → world current = some doc →
      (crawlStep world maxUrls s).entries = s.entries ++
        [⟨toString s.counter,
          (if extractTitle doc = "" then untitled else extractTitle doc),
          current, pyReprContent (extract_sections doc)⟩]) := by
  set P : CrawlState → Prop := fun t =>
    1 ≤ t.counter ∧
    ∀ e ∈ t.entries,
      (∃ k, 1 ≤ k ∧ e.id = toString k) ∧
      (e.url ∈ t.fetchLog ∧ canonical e.url ∈ t.visited) ∧
      (∃ secs, e.text = pyReprContent secs ∧ parsePyContent e.text = some secs) with hP
  have hpres : ∀ t, P t → P (crawlStep world maxUrls t) := by
    intro t ht
    simp only [hP] at ht ⊢
    obtain ⟨hc, hent⟩ := ht
    have hmono : (∀ u, u ∈ t.fetchLog → u ∈ (crawlStep world maxUrls t).fetchLog) ∧
        (∀ u, u ∈ t.visited → u ∈ (crawlStep world maxUrls t).visited) := by
      rcases crawlStep_visited_fetchLog world maxUrls t with ⟨hv, hf⟩ |
        ⟨c, r, hq, hlt, h1, h2, hv, hf⟩
      · rw [hv, hf]
        exact ⟨fun u h => h, fun u h => h⟩
      · rw [hv, hf]
        exact ⟨fun u h => List.mem_append.mpr (Or.inl h),
          fun u h => List.mem_append.mpr (Or.inl h)⟩
    rcases crawlStep_entries world maxUrls t with ⟨he, hcnt⟩ |
      ⟨c, r, doc, hq, hw, he, hcnt, hf, hv⟩
    · rw [he, hcnt]
      refine ⟨hc, ?_⟩
      intro e hm
      exact ⟨(hent e hm).1, ⟨hmono.1 _ (hent e hm).2.1.1, hmono.2 _ (hent e hm).2.1.2⟩,
        (hent e hm).2.2⟩
    · rw [he, hcnt]
      refine ⟨by omega, ?_⟩
      intro e hemem
      rcases List.mem_append.mp hemem with hm | hm
      · exact ⟨(hent e hm).1, ⟨hmono.1 _ (hent e hm).2.1.1, hmono.2 _ (hent e hm).2.1.2⟩,
          (hent e hm).2.2⟩
      · rw [List.mem_singleton.mp hm]
        refine ⟨⟨t.counter, hc, rfl⟩, ⟨?_, ?_⟩,
          ⟨extract_sections doc, rfl, parsePyContent_rt _⟩⟩
        · rw [hf]
          exact List.mem_append.mpr (Or.inr (by simp))
        · rw [hv]
          exact List.mem_append.mpr (Or.inr (by simp))
  have hinit : P (initState world root) := by
    simp only [hP, initState_entries, initState_counter]
    simp
  refine ⟨?_, ?_, ?_⟩
  · intro n
    exact (iterate_invariant (crawlStep world maxUrls) P hpres n _ hinit).2
  · obtain ⟨m, hm⟩ := crawlRun_eq_iterate world maxUrls (initState world root)
    rw [mainRun, hm]
    exact (iterate_invariant (crawlStep world maxUrls) P hpres m _ hinit).2
  · intro s current rest doc hq hlen h1 h2 hw
    have hstep : crawlStep world maxUrls s =
        enqueueLinks (recordPage { s with
          queue := rest
          visited := s.visited ++ [canonical current]
          fetchLog := s.fetchLog ++ [current] } current doc) maxUrls doc current := by
      simp only [crawlStep, hq]
      rw [if_neg (Nat.not_le.mpr hlen), if_neg h1, if_neg h2, hw]
    rw [hstep, enqueueLinks_entries, recordPage_eq]

/-- C3 — amended skip-empty behaviour: on a successfully fetched page the
controller always appends a ContentRecord and leaves `skipped` untouched
(the serialized content string is never empty, so `if title or content:`
always records); a page whose title is empty and whose section texts are all
empty is still recorded — it is counted in `emptyContent` instead. -/
theorem C3_amended_always_records (world : String → Option Node) (maxUrls : Nat)
    (s : CrawlState) (current : String) (rest : List String) (doc : Node)
    (hq : s.queue = current :: rest) (hlen : s.visited.length < maxUrls)
    (h1 : current ∉ s.visited) (h2 : canonical current ∉ s.visited)
    (hw : world current = some doc) :
    (crawlStep world maxUrls s).entries = s.entries ++
      [⟨toString s.counter,
        (if extractTitle doc = "" then untitled else extractTitle doc),
        current, pyReprContent (extract_sections doc)⟩] ∧
    (crawlStep world maxUrls s).skipped = s.skipped ∧
    (crawlStep world maxUrls s).emptyContent = s.emptyContent +
      (if (extract_sections doc).any (fun sec => sec.text ≠ "") then 0 else 1) := by
  have hstep : crawlStep world maxUrls s =
      enqueueLinks (recordPage { s with
        queue := rest
        visited := s.visited ++ [canonical current]
        fetchLog := s.fetchLog ++ [current] } current doc) maxUrls doc current := by
    simp only [crawlStep, hq]
    rw [if_neg (Nat.not_le.mpr hlen), if_neg h1, if_neg h2, hw]
  rw [hstep, enqueueLinks_entries, enqueueLinks_skipped, enqueueLinks_emptyContent,
    recordPage_eq]
  exact ⟨rfl, rfl, rfl⟩

/-- C10 — Non-empty extraction result (confirmed): for every parsed document
the extractor returns at least one Section (heading-derived, paragraph
fallback, or whole-region text), and the serialized content value it returns
is never the empty string. -/
theorem C10_nonempty_sections (doc : Node) :
    1 ≤ (extract_sections doc).length ∧ (extract_content doc).2 ≠ "" := by
  constructor
  · rw [extract_sections, contentSections]
    by_cases hc : (headingSections (select_main_content (scrubNode doc))).isEmpty ||
        !((headingSections (select_main_content (scrubNode doc))).any (fun s => s.text ≠ ""))
    · rw [if_pos hc]
      dsimp only
      split <;> simp
    · rw [if_neg hc]
      have hne : ¬(headingSections (select_main_content (scrubNode doc))).isEmpty := by
        intro hemp
        simp [hemp] at hc
      rcases hl : headingSections (select_main_content (scrubNode doc)) with - | ⟨x, xs⟩
      · rw [hl] at hne; simp at hne
      · simp [hl]
  · exact pyReprContent_ne_empty _

/-- C5 — amended extractLinks postcondition: the returned collection is
exactly the duplicate-free set obtained by resolving each anchor href with
the literal scheme `https` (not the base URL's scheme) for leading-`/` hrefs,
keeping `http(s)`-absolute hrefs as-is, discarding all other hrefs, and then
keeping only URLs whose domain equals the base URL's domain. -/
theorem C5_amended_links_spec (doc : Node) (base_url : String) :
    extract_links doc base_url = extractLinksHttpsSpec doc base_url ∧
    (∀ u, u ∈ extract_links doc base_url ↔
      u ∈ ((hrefsOf doc).filterMap
        (resolveHrefClaimed "https" (get_domain base_url))).filter
          (fun v => get_domain v == get_domain base_url)) ∧
    (extract_links doc base_url).Nodup := by
  refine ⟨extract_links_eq_httpsSpec doc base_url, ?_, ?_⟩
  · intro u
    rw [extract_links_eq_httpsSpec, extractLinksHttpsSpec, mem_dedupFirst]
  · rw [extract_links_eq_httpsSpec, extractLinksHttpsSpec]
    exact nodup_dedupFirst _

/-- The per-heading sibling walk collects exactly the nonempty stripped texts
of the siblings before the next h1–h4 heading (claim C6's description). -/
theorem siblingTexts_eq (l : List Node) :
    siblingTexts l =
      ((l.takeWhile (fun m => !isHeading m)).map getTextStrip).filter (fun t => t ≠ "") := by
  induction l with
  | nil => simp [siblingTexts]
  | cons n rest ih =>
    rw [siblingTexts]
    by_cases hh : isHeading n
    · rw [if_pos hh]
      rw [List.takeWhile_cons]
      simp [hh]
    · rw [if_neg hh]
      rw [List.takeWhile_cons]
      simp only [hh, Bool.not_false, if_true]
      by_cases ht : getTextStrip n = ""
      · rw [if_pos ht]
        simp [ht, ih]
      · rw [if_neg ht]
        simp [ht, ih]

/-- The source's sectioning pass (document-order `find_all` over headings
plus the `next_sibling` walk) computes exactly the claim's description: one
Section per nonempty-text h1–h4 descendant, in document order, built from
its following siblings. -/
theorem sectionsOfList_eq : ∀ (l : List Node),
    sectionsOfList l = (siblingsTravList l).filterMap specSectionOf
  | [] => by simp [sectionsOfList, siblingsTravList]
  | .text s :: rest => by
    have ih := sectionsOfList_eq rest
    rw [sectionsOfList, sectionsOfNode, siblingsTravList, siblingsTravNode]
    rw [List.filterMap_cons]
    rw [show specSectionOf (Node.text s, rest) = none from by
      simp [specSectionOf, isHeading, Node.tagName]]
    simp [ih]
  | .element t a kids :: rest => by
    have ih1 := sectionsOfList_eq kids
    have ih2 := sectionsOfList_eq rest
    rw [sectionsOfList, sectionsOfNode, siblingsTravList, siblingsTravNode]
    rw [List.filterMap_cons, List.filterMap_append]
    by_cases hh : isHeading (Node.element t a kids) &&
        getTextStrip (Node.element t a kids) ≠ ""
    · rw [if_pos hh]
      rw [show specSectionOf (Node.element t a kids, rest) =
          some (sectionFor (Node.element t a kids) rest) from by
        rw [specSectionOf, if_pos hh, sectionFor, siblingTexts_eq]]
      simp [ih1, ih2]
    · rw [if_neg hh]
      rw [show specSectionOf (Node.element t a kids, rest) = none from by
        rw [specSectionOf, if_neg hh]]
      simp [ih1, ih2]

/-- The heading sections of a region coincide with the claim's description. -/
theorem headingSections_eq (region : Node) :
    headingSections region = specHeadingSections region := by
  cases region with
  | text s => rw [headingSections, specHeadingSections, siblingsTravNode]; rfl
  | element t a kids =>
    rw [headingSections, specHeadingSections, siblingsTravNode, sectionsOfList_eq]

/-- Every heading-derived Section has nonempty text (the sentinel is
substituted when the sibling text is empty). -/
theorem headingSections_text_ne (region : Node) :
    ∀ sec ∈ headingSections region, sec.text ≠ "" := by
  intro sec hmem
  rw [headingSections_eq, specHeadingSections] at hmem
  obtain ⟨p, -, hp⟩ := List.mem_filterMap.mp hmem
  rw [specSectionOf] at hp
  by_cases hh : isHeading p.1 && getTextStrip p.1 ≠ ""
  · rw [if_pos hh] at hp
    have := (Option.some_inj.mp hp)
    rw [← this]
    dsimp only
    split
    · rw [noContentSentinel]; intro hcontra; simp at hcontra
    · assumption
  · rw [if_neg hh] at hp
    exact absurd hp (by simp)

/-- C6 — Heading-delimited sectioning (confirmed): whenever the selected
content region has at least one h1–h4 heading with nonempty text, the
extractor's output is exactly one Section per such heading in document
order, each built from the space-joined stripped text of the heading's
following siblings up to the next h1–h4 heading, with the sentinel
substituted when that text is empty (the `specHeadingSections` form taken
verbatim from the claim). -/
theorem C6_heading_sectioning (doc : Node)
    (h : specHeadingSections (select_main_content (scrubNode doc)) ≠ []) :
    extract_sections doc = specHeadingSections (select_main_content (scrubNode doc)) := by
  rw [extract_sections, contentSections]
  rw [← headingSections_eq] at h ⊢
  have hne : ¬(headingSections (select_main_content (scrubNode doc))).isEmpty := by
    simpa using h
  have hany : (headingSections (select_main_content (scrubNode doc))).any
      (fun s => s.text ≠ "") := by
    rcases hl : headingSections (select_main_content (scrubNode doc)) with - | ⟨x, xs⟩
    · exact absurd hl h
    · have hx := headingSections_text_ne (select_main_content (scrubNode doc)) x
        (by rw [hl]; simp)
      simp [hx]
  have hfalse : ¬(((headingSections (select_main_content (scrubNode doc))).isEmpty ||
      !((headingSections (select_main_content (scrubNode doc))).any
        (fun s => s.text ≠ ""))) = true) := by
    intro hor
    rw [Bool.of_not_eq_true hne, hany] at hor
    simp at hor
  rw [if_neg hfalse]

/-- When the visit bound is already reached, link extraction is skipped
(`if len(visited_urls) < max_urls:`). -/
theorem enqueueLinks_of_bound (s : CrawlState) (m : Nat) (d : Node) (c : String)
    (h : m ≤ s.visited.length) : enqueueLinks s m d c = s := by
  rw [enqueueLinks, if_neg (Nat.not_lt.mpr h)]

/-- C7 — amended bound-of-one run: with `maxUrls = 1` and a successfully
fetching seed, the run produces exactly one ContentRecord (for the seed) and
terminates, but the remaining frontier queue equals the links extracted from
the seed page by the pre-loop seeding — it is *not* empty whenever the seed
page contains same-domain links. -/
theorem C7_amended_bound_one (world : String → Option Node) (root : String) (doc : Node)
    (hw : world root = some doc) :
    (mainRun world root 1).entries =
      [⟨toString 1, (if extractTitle doc = "" then untitled else extractTitle doc),
        root, pyReprContent (extract_sections doc)⟩] ∧
    (mainRun world root 1).queue = extract_links doc root ∧
    loopDone 1 (mainRun world root 1) = true := by
  have h0 : initState world root =
      ⟨root :: extract_links doc root, [], [], 1, 0, 0, [root]⟩ := by
    rw [initState, hw]
    rfl
  have hstep : crawlStep world 1 (initState world root) =
      enqueueLinks (recordPage
        ⟨extract_links doc root, [canonical root], [], 1, 0, 0, [root, root]⟩ root doc)
        1 doc root := by
    rw [h0]
    simp only [crawlStep]
    rw [if_neg (by simp), if_neg (by simp : ¬root ∈ ([] : List String)),
      if_neg (by simp : ¬canonical root ∈ ([] : List String)), hw]
    rfl
  have hs2 : crawlStep world 1 (initState world root) =
      ⟨extract_links doc root, [canonical root],
        [⟨toString 1, (if extractTitle doc = "" then untitled else extractTitle doc),
          root, pyReprContent (extract_sections doc)⟩], 2, 0,
        (if (extract_sections doc).any (fun sec => sec.text ≠ "") then 0 else 1),
        [root, root]⟩ := by
    rw [hstep, recordPage_eq]
    rw [enqueueLinks_of_bound _ _ _ _ (by simp)]
    simp
  have hrun : mainRun world root 1 = crawlStep world 1 (initState world root) := by
    rw [mainRun, crawlRun]
    rw [if_neg (by rw [h0]; simp [loopDone])]
    rw [crawlRun]
    rw [if_pos (by rw [hs2]; simp [loopDone])]
  rw [hrun, hs2]
  exact ⟨rfl, rfl, by simp [loopDone]⟩

/-- C4 — the `main`/`article` selectors are dead code (code bug): for a
document whose only candidate content container is a `main` element, the
region-selection loop never evaluates the `main` (or `article`) selector —
their attrs dicts are empty so the inner `for attr_name, attr_values in
attrs.items()` loop body never runs — and the code falls back to the
document body.  The extracted content therefore includes body text outside
`main`, which selecting `main` would have excluded. -/
theorem C4_main_selector_dead :
    select_main_content (scrubNode exDocMain) = exBodyEl ∧
    exBodyEl.tagName = some "body" ∧
    exMainEl.tagName = some "main" ∧
    exBodyEl ≠ exMainEl ∧
    extract_sections exDocMain = [⟨none, "Outside text In the main element"⟩] := by
  refine ⟨rfl, rfl, rfl, ?_, by decide⟩
  intro hcontra
  rw [exBodyEl, exMainEl] at hcontra
  simp at hcontra

/-- C1 — counterexample: in a run over `exWorldFrag` (seed → page `/a` →
fragment variants `/p#1`, `/p#2`) the state after the loop's second
iteration has a pending queue whose two entries share the CanonicalURL
`https://d.com/p`: the enqueue check tests the raw link, not its canonical
form, against the queue.  This falsifies the claimed queue invariant. -/
theorem C1_counterexample_fragment_queue :
    ((crawlStep exWorldFrag 5)^[2] (initState exWorldFrag exRoot)).queue =
      ["https://d.com/p#1", "https://d.com/p#2"] ∧
    (((crawlStep exWorldFrag 5)^[2] (initState exWorldFrag exRoot)).queue.map canonical) =
      ["https://d.com/p", "https://d.com/p"] ∧
    ¬((((crawlStep exWorldFrag 5)^[2] (initState exWorldFrag exRoot)).queue.map
      canonical).Nodup) := by
  refine ⟨by decide, by decide, by decide⟩

/-- C3 — counterexample: a successfully fetched page with empty title and
all-empty section texts is *not* skipped: the run over the empty page
records one entry, leaves `skipped` at 0, and counts the page in
`emptyContent` instead. -/
theorem C3_counterexample_empty_page_recorded :
    extractTitle exPageEmpty = "" ∧
    (∀ sec ∈ extract_sections exPageEmpty, sec.text = "") ∧
    (mainRun exWorldEmpty exRoot 1).skipped = 0 ∧
    (mainRun exWorldEmpty exRoot 1).entries.length = 1 ∧
    (mainRun exWorldEmpty exRoot 1).emptyContent = 1 := by
  have hrun : mainRun exWorldEmpty exRoot 1 =
      (crawlStep exWorldEmpty 1)^[1] (initState exWorldEmpty exRoot) := by
    rw [mainRun, crawlRun, if_neg (by decide), crawlRun, if_pos (by decide)]
    rfl
  rw [hrun]
  refine ⟨by decide, by decide, by decide, by decide, by decide⟩

/-- C3 — witness for the amended claim at a concrete input: the empty page
is fetched successfully, and the step appends one record, does not touch
`skipped`, and bumps `emptyContent`. -/
theorem C3_amended_witness :
    (initState exWorldEmpty exRoot).queue = exRoot :: [] ∧
    (initState exWorldEmpty exRoot).visited.length < 1 ∧
    exRoot ∉ (initState exWorldEmpty exRoot).visited ∧
    canonical exRoot ∉ (initState exWorldEmpty exRoot).visited ∧
    exWorldEmpty exRoot = some exPageEmpty ∧
    ((crawlStep exWorldEmpty 1 (initState exWorldEmpty exRoot)).entries =
      (initState exWorldEmpty exRoot).entries ++
        [⟨toString (initState exWorldEmpty exRoot).counter,
          (if extractTitle exPageEmpty = "" then untitled else extractTitle exPageEmpty),
          exRoot, pyReprContent (extract_sections exPageEmpty)⟩] ∧
     (crawlStep exWorldEmpty 1 (initState exWorldEmpty exRoot)).skipped =
      (initState exWorldEmpty exRoot).skipped ∧
     (crawlStep exWorldEmpty 1 (initState exWorldEmpty exRoot)).emptyContent =
      (initState exWorldEmpty exRoot).emptyContent +
        (if (extract_sections exPageEmpty).any (fun sec => sec.text ≠ "") then 0 else 1)) :=
  ⟨by decide, by decide, by decide, by decide, rfl,
    C3_amended_always_records exWorldEmpty 1 (initState exWorldEmpty exRoot) exRoot []
      exPageEmpty (by decide) (by decide) (by decide) (by decide) rfl⟩

/-- C5 — counterexample: on the base URL `http://example.org/x` (scheme
`http`) the href `/foo` is resolved by the code to `https://example.org/foo`,
not to the base URL's scheme as the claim states. -/
theorem C5_counterexample_scheme :
    extract_links exDocSlash "http://example.org/x" = ["https://example.org/foo"] ∧
    extractLinksClaimed exDocSlash "http://example.org/x" = ["http://example.org/foo"] ∧
    extract_links exDocSlash "http://example.org/x" ≠
      extractLinksClaimed exDocSlash "http://example.org/x" := by
  refine ⟨by decide, by decide, by decide⟩

/-- C6 — witness: the Intro/Details document instantiates the sectioning
theorem; its two headings yield exactly two Sections in document order, each
holding only its own paragraph's text. -/
theorem C6_witness :
    specHeadingSections (select_main_content (scrubNode exDocHeadings)) ≠ [] ∧
    extract_sections exDocHeadings =
      specHeadingSections (select_main_content (scrubNode exDocHeadings)) ∧
    extract_sections exDocHeadings =
      [⟨some "Intro", "First para."⟩, ⟨some "Details", "Second para."⟩] :=
  ⟨by decide, C6_heading_sectioning exDocHeadings (by decide), by decide⟩

/-- C7 — counterexample: with `maxUrls = 1` and a seed page containing one
same-domain link, the run produces exactly one ContentRecord but terminates
with a *nonempty* frontier queue (the pre-loop seeding put the seed page's
links into the queue and the bound stops the loop before they are drained),
contradicting the claimed empty remaining frontier. -/
theorem C7_counterexample_nonempty_queue :
    (mainRun exWorldOneLink exRoot 1).entries.length = 1 ∧
    (mainRun exWorldOneLink exRoot 1).queue = ["https://d.com/a"] ∧
    (mainRun exWorldOneLink exRoot 1).queue ≠ [] := by
  have hrun : mainRun exWorldOneLink exRoot 1 =
      (crawlStep exWorldOneLink 1)^[1] (initState exWorldOneLink exRoot) := by
    rw [mainRun, crawlRun, if_neg (by decide), crawlRun, if_pos (by decide)]
    rfl
  rw [hrun]
  refine ⟨by decide, by decide, by decide⟩

/-- C7 — witness for the amended claim at a concrete input: the seed fetches
successfully and the final state holds exactly the seed's record, with the
queue equal to the links extracted from the seed page. -/
theorem C7_amended_witness :
    (mainRun exWorldOneLink exRoot 1).entries =
      [⟨toString 1,
        (if extractTitle exPageOneLink = "" then untitled else extractTitle exPageOneLink),
        exRoot, pyReprContent (extract_sections exPageOneLink)⟩] ∧
    (mainRun exWorldOneLink exRoot 1).queue = extract_links exPageOneLink exRoot ∧
    loopDone 1 (mainRun exWorldOneLink exRoot 1) = true :=
  C7_amended_bound_one exWorldOneLink exRoot exPageOneLink rfl

/-- C8 — witness: the record produced for the empty page in a concrete run
has a positive string-encoded id, a url field equal to the original fetched
URL (present verbatim in the fetch log, its canonical form in the visited
set), and a content string that parses back to its Section sequence; and at
the concrete seeded state, the record built for the fetched page stores the
dequeued URL verbatim in its url field. -/
theorem C8_witness :
    ((∃ k, 1 ≤ k ∧
      (Entry.mk "1" untitled exRoot "\x7b'sections': [\x7b'text': ''\x7d]\x7d").id =
        toString k) ∧
     ((Entry.mk "1" untitled exRoot "\x7b'sections': [\x7b'text': ''\x7d]\x7d").url ∈
        ((crawlStep exWorldEmpty 1)^[1] (initState exWorldEmpty exRoot)).fetchLog ∧
      canonical (Entry.mk "1" untitled exRoot "\x7b'sections': [\x7b'text': ''\x7d]\x7d").url ∈
        ((crawlStep exWorldEmpty 1)^[1] (initState exWorldEmpty exRoot)).visited) ∧
     (∃ secs,
      (Entry.mk "1" untitled exRoot "\x7b'sections': [\x7b'text': ''\x7d]\x7d").text =
        pyReprContent secs ∧
      parsePyContent
        (Entry.mk "1" untitled exRoot "\x7b'sections': [\x7b'text': ''\x7d]\x7d").text =
        some secs)) ∧
    ((crawlStep exWorldEmpty 1 (initState exWorldEmpty exRoot)).entries =
      (initState exWorldEmpty exRoot).entries ++
        [⟨toString (initState exWorldEmpty exRoot).counter,
          (if extractTitle exPageEmpty = "" then untitled else extractTitle exPageEmpty),
          exRoot, pyReprContent (extract_sections exPageEmpty)⟩]) :=
  ⟨(C8_record_shape exWorldEmpty exRoot 1).1 1
    (Entry.mk "1" untitled exRoot "\x7b'sections': [\x7b'text': ''\x7d]\x7d") (by decide),
   (C8_record_shape exWorldEmpty exRoot 1).2.2 (initState exWorldEmpty exRoot) exRoot []
     exPageEmpty (by decide) (by decide) (by decide) (by decide) rfl⟩

/-- C9 — counterexample: the seed URL is fetched twice in a run — once by
the pre-loop seeding and once when it is dequeued by the loop — so "at most
one fetch attempt per URL, including the seed" is false (and a failed
pre-loop attempt is retried by the loop: the same double fetch happens when
the seed fetch fails). -/
theorem C9_counterexample_seed_fetched_twice :
    (mainRun exWorldEmpty exRoot 1).fetchLog = [exRoot, exRoot] ∧
    (mainRun exWorldEmpty exRoot 1).fetchLog.count exRoot = 2 ∧
    ¬((mainRun exWorldEmpty exRoot 1).fetchLog.count exRoot ≤ 1) := by
  have hrun : mainRun exWorldEmpty exRoot 1 =
      (crawlStep exWorldEmpty 1)^[1] (initState exWorldEmpty exRoot) := by
    rw [mainRun, crawlRun, if_neg (by decide), crawlRun, if_pos (by decide)]
    rfl
  rw [hrun]
  refine ⟨by decide, by decide, by decide⟩

end Clarkie
